import Mathlib

/- Shallow embedding of src/Problem_2/rrt.py: the RRT planner (class RRT and
   its subclass GeometricRRT).  States are points of the plane, modelled as
   pairs of reals; the numpy arrays V (states) and P (parent indices) are
   modelled as lists of fixed length max_iters; the numpy pseudorandom source
   is modelled as an explicit stream of unit draws together with a cursor, so
   that each call np.random.uniform consumes one stream value per scalar
   drawn.  The external geometry utility line_line_intersection is a
   parameter (it is out of scope per the specification), and the external
   dubins provider is not modelled: all claims are settled on the geometric
   (holonomic) instance whose code is fully present in the file. -/

open scoped Classical

noncomputable section

/- A state of the holonomic model: a 2D position. -/
abbrev St : Type := ℝ × ℝ

/- An obstacle or motion: a line segment given by its two 2D endpoints. -/
abbrev Seg : Type := St × St

/- np.linalg.norm of a 2-vector. -/
def norm2 (v : St) : ℝ := Real.sqrt (v.1 ^ 2 + v.2 ^ 2)

/- The numpy pseudorandom source: an infinite stream of unit-interval draws
   together with the position of the next unread draw.  A fixed seed fixes
   the stream. -/
structure RNG where
  stream : ℕ → ℝ
  pos : ℕ

/- Read one scalar draw from the source. -/
def RNG.next (r : RNG) : ℝ × RNG := (r.stream r.pos, ⟨r.stream, r.pos + 1⟩)

/- np.random.uniform(0, 1): one scalar draw. -/
def uniform01 (r : RNG) : ℝ × RNG := r.next

/- np.random.uniform(lo, hi, shape) for a 2D state: one scalar draw per
   dimension, scaled to the per-dimension interval. -/
def uniformBox (lo hi : St) (r : RNG) : St × RNG :=
  let p1 := r.next
  let p2 := p1.2.next
  ((lo.1 + p1.1 * (hi.1 - lo.1), lo.2 + p2.1 * (hi.2 - lo.2)), p2.2)

/- The RRT constructor arguments: bounds, initial and goal states, and the
   obstacle set of line segments. -/
structure Problem where
  statespace_lo : St
  statespace_hi : St
  x_init : St
  x_goal : St
  obstacles : List Seg

/- The threshold test of GeometricRRT.find_nearest: dist < threshold and
   threshold != 0, where the initial threshold is float inf (modelled as
   none). -/
def threshOk (dist : ℝ) : Option ℝ → Prop
  | none => True
  | some t => dist < t ∧ t ≠ 0

/- The loop body of GeometricRRT.find_nearest: for i in range(V.shape[0]),
   skip rows of zero norm, and otherwise update the running nearest index
   whenever the distance to the query beats the threshold. -/
def findNearestLoop (x : St) : List St → ℕ → Option ℝ → ℕ → ℕ
  | [], _, _, nearidx => nearidx
  | v :: rest, i, threshold, nearidx =>
    if norm2 v = 0 then
      findNearestLoop x rest (i + 1) threshold nearidx
    else
      if threshOk (norm2 (v - x)) threshold then
        findNearestLoop x rest (i + 1) (some (norm2 (v - x))) i
      else
        findNearestLoop x rest (i + 1) threshold nearidx

/- GeometricRRT.find_nearest: scan all rows of V (the full pre-sized array,
   not only the occupied ones), with threshold initialised to inf and
   nearidx to 0. -/
def find_nearest (V : List St) (x : St) : ℕ := findNearestLoop x V 0 none 0

/- GeometricRRT.steer_towards. -/
def steer_towards (x y : St) (eps : ℝ) : St :=
  if norm2 (y - x) < eps then y else x + (eps / norm2 (y - x)) • (y - x)

/- GeometricRRT.is_free_motion, parameterised by the external geometry
   utility line_line_intersection: scan the obstacle list and return False
   on the first obstacle intersecting the motion segment. -/
def is_free_motion (inter : Seg → Seg → Bool) : List Seg → St → St → Bool
  | [], _, _ => true
  | line :: rest, x1, x2 =>
    if inter (x1, x2) line then false else is_free_motion inter rest x1 x2

/- The while loop of soln_path inside RRT.solve: walk parent links while the
   index is greater than -1, collecting states child first.  The python loop
   has no explicit bound; the fuel argument makes the recursion structural,
   and fuel independence beyond index + 1 steps is proved below under the
   parent invariant, so a fuel of V.length + 1 is never the binding
   constraint on trees produced by solve. -/
def pathWalk (V : List St) (P : List ℤ) : ℕ → ℤ → List St
  | 0, _ => []
  | fuel + 1, stateidx =>
    if -1 < stateidx then
      V.getD stateidx.toNat 0 :: pathWalk V P fuel (P.getD stateidx.toNat (-1))
    else []

/- soln_path(V, P, lastidx): the child-to-root walk, reversed to run from
   the root to the state at lastidx. -/
def soln_path (V : List St) (P : List ℤ) (lastidx : ℕ) : List St :=
  (pathWalk V P (V.length + 1) (lastidx : ℤ)).reverse

/- The mutable state of one RRT.solve invocation: the arrays V and P, the
   counter n, the success flag, the solution path, and the random source. -/
structure SolveState where
  V : List St
  P : List ℤ
  n : ℕ
  success : Bool
  solution_path : List St
  rng : RNG

/- One iteration of the solve loop at index k: draw z and xrand (both draws
   always happen, in this order), apply the goal bias, find the nearest row,
   steer, and on a free motion write V[k] and P[k] and test the goal by
   exact state equality. -/
def solveStep (inter : Seg → Seg → Bool) (p : Problem) (eps goal_bias : ℝ)
    (k : ℕ) (s : SolveState) : SolveState :=
  let pz := uniform01 s.rng
  let pr := uniformBox p.statespace_lo p.statespace_hi pz.2
  let xrand := if pz.1 < goal_bias then p.x_goal else pr.1
  let xnearidx := find_nearest s.V xrand
  let xnear := s.V.getD xnearidx 0
  let xnew := steer_towards xnear xrand eps
  if is_free_motion inter p.obstacles xnear xnew then
    if xnew = p.x_goal then
      { V := s.V.set k xnew, P := s.P.set k (xnearidx : ℤ), n := s.n,
        success := true,
        solution_path := soln_path (s.V.set k xnew) (s.P.set k (xnearidx : ℤ)) k,
        rng := pr.2 }
    else
      { s with V := s.V.set k xnew, P := s.P.set k (xnearidx : ℤ), rng := pr.2 }
  else
    { s with rng := pr.2 }

/- for k in range(1, max_iters) with break on success: once the success flag
   is set the remaining iterations do nothing. -/
def runIters (inter : Seg → Seg → Bool) (p : Problem) (eps goal_bias : ℝ) :
    List ℕ → SolveState → SolveState
  | [], s => s
  | k :: ks, s =>
    if s.success then s
    else runIters inter p eps goal_bias ks (solveStep inter p eps goal_bias k s)

/- The state of RRT.solve just before the loop: V is the zero array with
   row 0 set to x_init, P is the all -1 array, n is 1, success is False and
   the solution path is empty. -/
def initState (p : Problem) (max_iters : ℕ) (r : RNG) : SolveState :=
  { V := (List.replicate max_iters (0 : St)).set 0 p.x_init
    P := List.replicate max_iters (-1 : ℤ)
    n := 1
    success := false
    solution_path := []
    rng := r }

/- RRT.solve(eps, max_iters, goal_bias) on the geometric instance, as a
   function of the random source. -/
def solve (inter : Seg → Seg → Bool) (p : Problem) (eps : ℝ) (max_iters : ℕ)
    (goal_bias : ℝ) (r : RNG) : SolveState :=
  runIters inter p eps goal_bias (List.range' 1 (max_iters - 1))
    (initState p max_iters r)

/- A tree index counts as occupied when it is the root or its parent entry
   has been written (the parent array holds -1 exactly at unwritten slots
   and at the root). -/
def OccupiedP (P : List ℤ) (i : ℕ) : Prop := i = 0 ∨ 0 ≤ P.getD i (-1)

def Occupied (s : SolveState) (i : ℕ) : Prop := OccupiedP s.P i

/- The structural invariant of the planning arrays during the loop, with
   watermark k (the index of the next iteration): both arrays have the
   pre-sized length, slots from k on are untouched, the root has parent -1,
   every parent entry is below its own index, every written non-root slot
   has an occupied parent below it, and every slot holding a nonzero state
   has been written. -/
def TreeInv (mi k : ℕ) (V : List St) (P : List ℤ) : Prop :=
  V.length = mi ∧ P.length = mi ∧
  (∀ j, k ≤ j → j < mi → V.getD j 0 = 0 ∧ P.getD j (-1) = -1) ∧
  P.getD 0 (-1) = -1 ∧
  (∀ j, 0 < j → P.getD j (-1) < (j : ℤ)) ∧
  (∀ j, 0 < j → 0 ≤ P.getD j (-1) →
    OccupiedP P (P.getD j (-1)).toNat ∧ (P.getD j (-1)).toNat < j) ∧
  (∀ j, 0 < j → V.getD j 0 ≠ 0 → 0 ≤ P.getD j (-1))

/- The full loop invariant: the tree invariant, plus the bookkeeping of the
   success flag, which records that the path stays empty and no written
   non-root slot holds the goal until a success, and that a success froze
   the loop at the inserting slot with the path reconstructed there. -/
def LoopInv (p : Problem) (mi k : ℕ) (s : SolveState) : Prop :=
  TreeInv mi k s.V s.P ∧
  (s.success = false → s.solution_path = [] ∧
    ∀ j, 0 < j → 0 ≤ s.P.getD j (-1) → s.V.getD j 0 ≠ p.x_goal) ∧
  (s.success = true → ∃ k0, 0 < k0 ∧ k0 < mi ∧ k0 < k ∧
    0 ≤ s.P.getD k0 (-1) ∧ s.V.getD k0 0 = p.x_goal ∧
    s.solution_path = soln_path s.V s.P k0 ∧
    ∀ j, k0 < j → j < mi → s.P.getD j (-1) = -1 ∧ s.V.getD j 0 = 0)

/- A concrete problem instance used to exercise the code: no obstacles,
   x_init = (1, 0), x_goal = (2, 0). -/
def pEx : Problem :=
  { statespace_lo := (-5, -5), statespace_hi := (5, 5),
    x_init := (1, 0), x_goal := (2, 0), obstacles := [] }

/- A concrete intersection test (irrelevant on an empty obstacle set). -/
def interEx : Seg → Seg → Bool := fun _ _ => false

/- A concrete seeded random source whose unit draws are all zero. -/
def rngEx : RNG := ⟨fun _ => 0, 0⟩

end

/- Basic facts about norm2. -/

theorem norm2_nonneg (v : St) : 0 ≤ norm2 v := Real.sqrt_nonneg _

theorem norm2_zero : norm2 (0 : St) = 0 := by
  simp [norm2]

theorem norm2_smul (c : ℝ) (v : St) : norm2 (c • v) = |c| * norm2 v := by
  have h : (c • v).1 ^ 2 + (c • v).2 ^ 2 = c ^ 2 * (v.1 ^ 2 + v.2 ^ 2) := by
    simp [Prod.smul_fst, Prod.smul_snd, smul_eq_mul]
    ring
  rw [norm2, norm2, h, Real.sqrt_mul (sq_nonneg c), Real.sqrt_sq_eq_abs]

/- getD lemmas for the pre-sized arrays. -/

theorem getD_set_self {α : Type} (l : List α) (i : ℕ) (a d : α)
    (h : i < l.length) : (l.set i a).getD i d = a := by
  rw [List.getD_eq_getElem _ _ (by simpa using h)]
  simp

theorem getD_set_ne {α : Type} (l : List α) (i j : ℕ) (a d : α)
    (h : i ≠ j) : (l.set i a).getD j d = l.getD j d := by
  by_cases hj : j < l.length
  · rw [List.getD_eq_getElem _ _ (by simpa using hj), List.getD_eq_getElem _ _ hj]
    exact List.getElem_set_ne h _
  · rw [List.getD_eq_default _ _ (by simpa using Nat.le_of_not_lt hj),
      List.getD_eq_default _ _ (Nat.le_of_not_lt hj)]

theorem getD_replicate_self {α : Type} (n j : ℕ) (a : α) :
    (List.replicate n a).getD j a = a := by
  by_cases hj : j < n
  · rw [List.getD_eq_getElem _ _ (by simpa using hj)]
    simp
  · rw [List.getD_eq_default _ _ (by simpa using Nat.le_of_not_lt hj)]

/-- C7: for the holonomic model, steer_towards returns the target y when
the Euclidean distance from x to y is below eps, and otherwise returns the
point at distance exactly eps from x on the segment from x to y. -/
theorem c7_steer_spec (x y : St) (eps : ℝ) (heps : 0 < eps) :
    (norm2 (y - x) < eps → steer_towards x y eps = y) ∧
    (eps ≤ norm2 (y - x) →
      norm2 (steer_towards x y eps - x) = eps ∧
      ∃ t : ℝ, 0 ≤ t ∧ t ≤ 1 ∧ steer_towards x y eps = x + t • (y - x)) := by
  constructor
  · intro h
    simp [steer_towards, h]
  · intro h
    have hmagpos : 0 < norm2 (y - x) := lt_of_lt_of_le heps h
    have hne : norm2 (y - x) ≠ 0 := ne_of_gt hmagpos
    have hst : steer_towards x y eps = x + (eps / norm2 (y - x)) • (y - x) := by
      rw [steer_towards, if_neg (not_lt.mpr h)]
    refine ⟨?_, ⟨eps / norm2 (y - x), ?_, ?_, hst⟩⟩
    · rw [hst, add_sub_cancel_left, norm2_smul,
        abs_of_pos (div_pos heps hmagpos), div_mul_cancel₀ _ hne]
    · exact le_of_lt (div_pos heps hmagpos)
    · exact (div_le_one hmagpos).mpr h

/-- C7 witness: the steering theorem applied at x = (0,0), y = (3,0),
eps = 1. -/
theorem c7_steer_spec_witness :
    0 < (1 : ℝ) ∧
    ((norm2 (((3, 0) : St) - ((0, 0) : St)) < 1 →
        steer_towards ((0, 0) : St) ((3, 0) : St) 1 = ((3, 0) : St)) ∧
      (1 ≤ norm2 (((3, 0) : St) - ((0, 0) : St)) →
        norm2 (steer_towards ((0, 0) : St) ((3, 0) : St) 1 - ((0, 0) : St)) = 1 ∧
        ∃ t : ℝ, 0 ≤ t ∧ t ≤ 1 ∧ steer_towards ((0, 0) : St) ((3, 0) : St) 1 =
          ((0, 0) : St) + t • (((3, 0) : St) - ((0, 0) : St)))) :=
  ⟨one_pos, c7_steer_spec ((0, 0) : St) ((3, 0) : St) 1 one_pos⟩

/-- C8: for the holonomic model, is_free_motion returns false exactly when
the external segment intersection test accepts the motion segment against
at least one obstacle, and returns true exactly when it rejects every
obstacle. -/
theorem c8_is_free_motion_iff (inter : Seg → Seg → Bool) (obstacles : List Seg)
    (x1 x2 : St) :
    (is_free_motion inter obstacles x1 x2 = false ↔
      ∃ line ∈ obstacles, inter (x1, x2) line = true) ∧
    (is_free_motion inter obstacles x1 x2 = true ↔
      ∀ line ∈ obstacles, inter (x1, x2) line = false) := by
  induction obstacles with
  | nil => simp [is_free_motion]
  | cons line rest ih =>
    by_cases h : inter (x1, x2) line = true
    · simp [is_free_motion, h]
    · have h2 : inter (x1, x2) line = false := by simpa using h
      simp [is_free_motion, h2, ih]

/- Unfolding equations for findNearestLoop. -/

theorem findNearestLoop_nil (x : St) (i : ℕ) (thr : Option ℝ) (ni : ℕ) :
    findNearestLoop x [] i thr ni = ni := rfl

theorem findNearestLoop_cons (x v : St) (rest : List St) (i : ℕ)
    (thr : Option ℝ) (ni : ℕ) :
    findNearestLoop x (v :: rest) i thr ni =
      if norm2 v = 0 then findNearestLoop x rest (i + 1) thr ni
      else
        if threshOk (norm2 (v - x)) thr then
          findNearestLoop x rest (i + 1) (some (norm2 (v - x))) i
        else findNearestLoop x rest (i + 1) thr ni := rfl

/- The index returned by the find_nearest loop is either the running
   nearest index it started from, or the absolute index of a row of nonzero
   norm. -/
theorem findNearestLoop_cases (x : St) (rows : List St) :
    ∀ (i0 : ℕ) (thr : Option ℝ) (ni : ℕ),
      findNearestLoop x rows i0 thr ni = ni ∨
      ∃ j, j < rows.length ∧ rows.getD j 0 ≠ 0 ∧
        findNearestLoop x rows i0 thr ni = i0 + j := by
  induction rows with
  | nil => intro i0 thr ni; left; rfl
  | cons v rest ih =>
    intro i0 thr ni
    by_cases hv : norm2 v = 0
    · rcases ih (i0 + 1) thr ni with h | ⟨j, hj, hne, heq⟩
      · left; rw [findNearestLoop_cons, if_pos hv]; exact h
      · right
        refine ⟨j + 1, by simpa using Nat.succ_lt_succ hj, by simpa using hne, ?_⟩
        rw [findNearestLoop_cons, if_pos hv, heq]; omega
    · have hvne : v ≠ 0 := fun h => hv (h ▸ norm2_zero)
      by_cases ht : threshOk (norm2 (v - x)) thr
      · rcases ih (i0 + 1) (some (norm2 (v - x))) i0 with h | ⟨j, hj, hne, heq⟩
        · right
          refine ⟨0, by simp, by simpa using hvne, ?_⟩
          rw [findNearestLoop_cons, if_neg hv, if_pos ht, h]; omega
        · right
          refine ⟨j + 1, by simpa using Nat.succ_lt_succ hj, by simpa using hne, ?_⟩
          rw [findNearestLoop_cons, if_neg hv, if_pos ht, heq]; omega
      · rcases ih (i0 + 1) thr ni with h | ⟨j, hj, hne, heq⟩
        · left; rw [findNearestLoop_cons, if_neg hv, if_neg ht]; exact h
        · right
          refine ⟨j + 1, by simpa using Nat.succ_lt_succ hj, by simpa using hne, ?_⟩
          rw [findNearestLoop_cons, if_neg hv, if_neg ht, heq]; omega

/- find_nearest returns either the default index 0 or the index of a row of
   nonzero norm. -/
theorem find_nearest_cases (V : List St) (x : St) :
    find_nearest V x = 0 ∨
    (find_nearest V x < V.length ∧ V.getD (find_nearest V x) 0 ≠ 0) := by
  rcases findNearestLoop_cases x V 0 none 0 with h | ⟨j, hj, hne, heq⟩
  · left; exact h
  · right
    have hj0 : find_nearest V x = j := by rw [find_nearest, heq]; omega
    rw [hj0]
    exact ⟨hj, hne⟩

/- Unfolding equations for runIters. -/

theorem runIters_nil (inter : Seg → Seg → Bool) (p : Problem) (eps gb : ℝ)
    (s : SolveState) : runIters inter p eps gb [] s = s := rfl

theorem runIters_cons (inter : Seg → Seg → Bool) (p : Problem) (eps gb : ℝ)
    (k : ℕ) (ks : List ℕ) (s : SolveState) :
    runIters inter p eps gb (k :: ks) s =
      if s.success then s
      else runIters inter p eps gb ks (solveStep inter p eps gb k s) := rfl

/- Each executed iteration advances the random source cursor by exactly
   three scalar draws and leaves the stream itself unchanged, in every
   branch of the body. -/
theorem solveStep_rng (inter : Seg → Seg → Bool) (p : Problem) (eps gb : ℝ)
    (k : ℕ) (s : SolveState) :
    (solveStep inter p eps gb k s).rng = ⟨s.rng.stream, s.rng.pos + 3⟩ := by
  have h3 : s.rng.pos + 1 + 1 + 1 = s.rng.pos + 3 := by omega
  simp only [solveStep, uniform01, uniformBox, RNG.next]
  split_ifs <;> simp [h3]

/- The n field is written once (to 1) before the loop and never touched by
   the loop body. -/
theorem solveStep_n (inter : Seg → Seg → Bool) (p : Problem) (eps gb : ℝ)
    (k : ℕ) (s : SolveState) : (solveStep inter p eps gb k s).n = s.n := by
  simp only [solveStep]
  split_ifs <;> rfl

theorem runIters_n (inter : Seg → Seg → Bool) (p : Problem) (eps gb : ℝ)
    (ks : List ℕ) : ∀ s : SolveState,
    (runIters inter p eps gb ks s).n = s.n := by
  induction ks with
  | nil => intro s; rfl
  | cons k ks ih =>
    intro s
    rw [runIters_cons]
    by_cases hs : s.success
    · rw [if_pos hs]
    · rw [if_neg hs, ih, solveStep_n]

/- The cursor never moves backwards across the remaining iterations. -/
theorem runIters_rng_pos_le (inter : Seg → Seg → Bool) (p : Problem)
    (eps gb : ℝ) (ks : List ℕ) : ∀ s : SolveState,
    s.rng.pos ≤ (runIters inter p eps gb ks s).rng.pos := by
  induction ks with
  | nil => intro s; exact le_refl _
  | cons k ks ih =>
    intro s
    rw [runIters_cons]
    by_cases hs : s.success
    · rw [if_pos hs]
    · rw [if_neg hs]
      refine le_trans ?_ (ih (solveStep inter p eps gb k s))
      rw [solveStep_rng]
      exact Nat.le_add_right _ _

/-- C10: each iteration of the solve loop consumes a fixed amount of
randomness: the bias coin flip and the two scalars of the uniform box
sample are always drawn, advancing the cursor by exactly three, and the
consumption does not depend on eps or on the goal bias (hence not on
whether the bias fired and the box sample was discarded). -/
theorem c10_rng_consumption (inter : Seg → Seg → Bool) (p : Problem)
    (eps gb : ℝ) (k : ℕ) (s : SolveState) :
    (solveStep inter p eps gb k s).rng.stream = s.rng.stream ∧
    (solveStep inter p eps gb k s).rng.pos = s.rng.pos + 3 ∧
    ∀ eps2 gb2 : ℝ, (solveStep inter p eps2 gb2 k s).rng =
      (solveStep inter p eps gb k s).rng := by
  refine ⟨?_, ?_, ?_⟩
  · rw [solveStep_rng]
  · rw [solveStep_rng]
  · intro eps2 gb2
    rw [solveStep_rng, solveStep_rng]

/- Weakening the watermark of the invariant. -/
theorem Inv_mono (p : Problem) (mi k k2 : ℕ) (s : SolveState) (hk : k ≤ k2)
    (h : LoopInv p mi k s) : LoopInv p mi k2 s := by
  obtain ⟨⟨h1, h2, h3, h4, h5, h6, h7⟩, h8, h9⟩ := h
  refine ⟨⟨h1, h2, fun j hj hjm => h3 j (le_trans hk hj) hjm, h4, h5, h6, h7⟩, h8, ?_⟩
  intro hsucc
  obtain ⟨k0, a, b, c, rest⟩ := h9 hsucc
  exact ⟨k0, a, b, lt_of_lt_of_le c hk, rest⟩

/- The invariant holds on the state prepared before the loop. -/
theorem initState_inv (p : Problem) (mi : ℕ) (r : RNG) :
    LoopInv p mi 1 (initState p mi r) := by
  have hV : ∀ j, 1 ≤ j →
      ((List.replicate mi (0 : St)).set 0 p.x_init).getD j 0 = 0 := by
    intro j hj
    rw [getD_set_ne _ _ _ _ _ (by omega), getD_replicate_self]
  have hP : ∀ j, (List.replicate mi (-1 : ℤ)).getD j (-1) = -1 := fun j =>
    getD_replicate_self mi j (-1)
  refine ⟨⟨?_, ?_, ?_, ?_, ?_, ?_, ?_⟩, ?_, ?_⟩
  · simp [initState]
  · simp [initState]
  · intro j hj hjm
    exact ⟨hV j hj, hP j⟩
  · exact hP 0
  · intro j hj
    have := hP j
    simp only [initState] at *
    rw [this]
    omega
  · intro j hj hle
    simp only [initState] at hle
    rw [hP j] at hle
    omega
  · intro j hj hne
    simp only [initState] at hne
    exact absurd (hV j hj) hne
  · intro _
    refine ⟨rfl, ?_⟩
    intro j hj hle
    simp only [initState] at hle
    rw [hP j] at hle
    omega
  · intro hsucc
    exact absurd hsucc (by simp [initState])

/- Writing a fresh state at slot k with a parent below the watermark
   preserves the tree invariant and advances the watermark. -/
theorem TreeInv_set (mi k : ℕ) (V : List St) (P : List ℤ) (xnew : St) (ni : ℕ)
    (hk1 : 1 ≤ k) (hkmi : k < mi) (h : TreeInv mi k V P)
    (hni : ni < k) (hocc : OccupiedP P ni) :
    TreeInv mi (k + 1) (V.set k xnew) (P.set k (ni : ℤ)) := by
  obtain ⟨hVlen, hPlen, hzero, hroot, hback, hpar, hwrit⟩ := h
  have hPbey : ∀ j, mi ≤ j → P.getD j (-1) = -1 := by
    intro j hj
    exact List.getD_eq_default _ _ (by omega)
  have hPk : (P.set k (ni : ℤ)).getD k (-1) = (ni : ℤ) :=
    getD_set_self _ _ _ _ (by omega)
  have hPne : ∀ j, j ≠ k → (P.set k (ni : ℤ)).getD j (-1) = P.getD j (-1) :=
    fun j hj => getD_set_ne _ _ _ _ _ (Ne.symm hj)
  have hVk : (V.set k xnew).getD k 0 = xnew :=
    getD_set_self _ _ _ _ (by omega)
  have hVne : ∀ j, j ≠ k → (V.set k xnew).getD j 0 = V.getD j 0 :=
    fun j hj => getD_set_ne _ _ _ _ _ (Ne.symm hj)
  have hbelow : ∀ j, 0 < j → 0 ≤ P.getD j (-1) → j < k := by
    intro j hj0 hj
    by_contra hge
    push_neg at hge
    rcases lt_or_le j mi with hlt | hle
    · rw [(hzero j hge hlt).2] at hj
      omega
    · rw [hPbey j hle] at hj
      omega
  refine ⟨by simp [hVlen], by simp [hPlen], ?_, ?_, ?_, ?_, ?_⟩
  · intro j hj hjm
    have hjk : j ≠ k := by omega
    rw [hVne j hjk, hPne j hjk]
    exact hzero j (by omega) hjm
  · rw [hPne 0 (by omega)]
    exact hroot
  · intro j hj
    by_cases hjk : j = k
    · subst hjk
      rw [hPk]
      omega
    · rw [hPne j hjk]
      exact hback j hj
  · intro j hj hle
    by_cases hjk : j = k
    · subst hjk
      rw [hPk] at hle ⊢
      have htn : ((ni : ℤ)).toNat = ni := by omega
      rw [htn]
      constructor
      · rcases hocc with h0 | hPocc
        · exact Or.inl h0
        · right
          rw [hPne ni (by omega)]
          exact hPocc
      · exact hni
    · rw [hPne j hjk] at hle ⊢
      obtain ⟨ho, hlt⟩ := hpar j hj hle
      have hjk2 : j < k := hbelow j hj hle
      constructor
      · rcases ho with h0 | hPocc
        · exact Or.inl h0
        · right
          rw [hPne _ (by omega)]
          exact hPocc
      · exact hlt
  · intro j hj hne
    by_cases hjk : j = k
    · subst hjk
      rw [hPk]
      omega
    · rw [hVne j hjk] at hne
      rw [hPne j hjk]
      exact hwrit j hj hne

/- Inserting a non-goal state at slot k preserves the invariant. -/
theorem recordNoGoal_inv (p : Problem) (mi k : ℕ) (s : SolveState) (xnew : St)
    (ni : ℕ) (r2 : RNG) (hk1 : 1 ≤ k) (hkmi : k < mi) (hs : s.success = false)
    (hinv : LoopInv p mi k s) (hnik : ni < k) (hocc : OccupiedP s.P ni)
    (hng : xnew ≠ p.x_goal) :
    LoopInv p mi (k + 1)
      { s with V := s.V.set k xnew, P := s.P.set k (ni : ℤ), rng := r2 } := by
  obtain ⟨htree, hnos, hyes⟩ := hinv
  have htree2 := TreeInv_set mi k s.V s.P xnew ni hk1 hkmi htree hnik hocc
  obtain ⟨hVlen, hPlen, hzero, _, _, _, _⟩ := htree
  have hPne : ∀ j, j ≠ k → (s.P.set k (ni : ℤ)).getD j (-1) = s.P.getD j (-1) :=
    fun j hj => getD_set_ne _ _ _ _ _ (Ne.symm hj)
  have hVk : (s.V.set k xnew).getD k 0 = xnew :=
    getD_set_self _ _ _ _ (by omega)
  have hVne : ∀ j, j ≠ k → (s.V.set k xnew).getD j 0 = s.V.getD j 0 :=
    fun j hj => getD_set_ne _ _ _ _ _ (Ne.symm hj)
  refine ⟨htree2, ?_, ?_⟩
  · intro _
    obtain ⟨hpath, hng2⟩ := hnos hs
    refine ⟨hpath, ?_⟩
    intro j hj hle
    dsimp only at hle ⊢
    by_cases hjk : j = k
    · subst hjk
      rw [hVk]
      exact hng
    · rw [hVne j hjk]
      rw [hPne j hjk] at hle
      exact hng2 j hj hle
  · intro hsucc
    dsimp only at hsucc
    rw [hs] at hsucc
    cases hsucc

/- Inserting the goal state at slot k sets success and freezes the loop,
   preserving the invariant. -/
theorem recordGoal_inv (p : Problem) (mi k : ℕ) (s : SolveState) (xnew : St)
    (ni : ℕ) (r2 : RNG) (hk1 : 1 ≤ k) (hkmi : k < mi) (hs : s.success = false)
    (hinv : LoopInv p mi k s) (hnik : ni < k) (hocc : OccupiedP s.P ni)
    (hg : xnew = p.x_goal) :
    LoopInv p mi (k + 1)
      { V := s.V.set k xnew, P := s.P.set k (ni : ℤ), n := s.n,
        success := true,
        solution_path := soln_path (s.V.set k xnew) (s.P.set k (ni : ℤ)) k,
        rng := r2 } := by
  obtain ⟨htree, hnos, hyes⟩ := hinv
  have htree2 := TreeInv_set mi k s.V s.P xnew ni hk1 hkmi htree hnik hocc
  obtain ⟨hVlen, hPlen, hzero, _, _, _, _⟩ := htree
  have hPk : (s.P.set k (ni : ℤ)).getD k (-1) = (ni : ℤ) :=
    getD_set_self _ _ _ _ (by omega)
  have hPne : ∀ j, j ≠ k → (s.P.set k (ni : ℤ)).getD j (-1) = s.P.getD j (-1) :=
    fun j hj => getD_set_ne _ _ _ _ _ (Ne.symm hj)
  have hVk : (s.V.set k xnew).getD k 0 = xnew :=
    getD_set_self _ _ _ _ (by omega)
  have hVne : ∀ j, j ≠ k → (s.V.set k xnew).getD j 0 = s.V.getD j 0 :=
    fun j hj => getD_set_ne _ _ _ _ _ (Ne.symm hj)
  refine ⟨htree2, ?_, ?_⟩
  · intro hfalse
    dsimp only at hfalse
    cases hfalse
  · intro _
    refine ⟨k, hk1, hkmi, by omega, ?_, ?_, rfl, ?_⟩
    · dsimp only
      rw [hPk]
      omega
    · dsimp only
      rw [hVk]
      exact hg
    · intro j hjk hjm
      dsimp only
      have hne : j ≠ k := by omega
      rw [hPne j hne, hVne j hne]
      have hz := hzero j (by omega) hjm
      exact ⟨hz.2, hz.1⟩

/- The nearest index returned during iteration k is below the watermark and
   occupied, and with it both insertion shapes preserve the invariant. -/
theorem stepRecord_inv (p : Problem) (mi k : ℕ) (s : SolveState) (xrand : St)
    (eps : ℝ) (r2 : RNG) (hk1 : 1 ≤ k) (hkmi : k < mi)
    (hs : s.success = false) (hinv : LoopInv p mi k s) :
    (steer_towards (s.V.getD (find_nearest s.V xrand) 0) xrand eps ≠ p.x_goal →
      LoopInv p mi (k + 1)
        { s with
          V := s.V.set k
            (steer_towards (s.V.getD (find_nearest s.V xrand) 0) xrand eps),
          P := s.P.set k ((find_nearest s.V xrand : ℕ) : ℤ), rng := r2 }) ∧
    (steer_towards (s.V.getD (find_nearest s.V xrand) 0) xrand eps = p.x_goal →
      LoopInv p mi (k + 1)
        { V := s.V.set k
            (steer_towards (s.V.getD (find_nearest s.V xrand) 0) xrand eps),
          P := s.P.set k ((find_nearest s.V xrand : ℕ) : ℤ), n := s.n,
          success := true,
          solution_path := soln_path
            (s.V.set k
              (steer_towards (s.V.getD (find_nearest s.V xrand) 0) xrand eps))
            (s.P.set k ((find_nearest s.V xrand : ℕ) : ℤ)) k,
          rng := r2 }) := by
  have hni : find_nearest s.V xrand < k ∧ OccupiedP s.P (find_nearest s.V xrand) := by
    obtain ⟨⟨hVlen, hPlen, hzero, _, _, _, hwrit⟩, _, _⟩ := hinv
    rcases find_nearest_cases s.V xrand with h0 | ⟨hlt, hnz⟩
    · rw [h0]
      exact ⟨hk1, Or.inl rfl⟩
    · have hmi : find_nearest s.V xrand < mi := by
        rw [← hVlen]
        exact hlt
      have hltk : find_nearest s.V xrand < k := by
        by_contra hge
        push_neg at hge
        exact hnz (hzero _ hge hmi).1
      refine ⟨hltk, ?_⟩
      by_cases hz0 : find_nearest s.V xrand = 0
      · exact Or.inl hz0
      · exact Or.inr (hwrit _ (Nat.pos_of_ne_zero hz0) hnz)
  exact ⟨fun hng => recordNoGoal_inv p mi k s _ _ r2 hk1 hkmi hs hinv hni.1 hni.2 hng,
    fun hg => recordGoal_inv p mi k s _ _ r2 hk1 hkmi hs hinv hni.1 hni.2 hg⟩

/- One executed iteration preserves the invariant and advances the
   watermark. -/
theorem solveStep_inv (inter : Seg → Seg → Bool) (p : Problem) (eps gb : ℝ)
    (mi k : ℕ) (s : SolveState) (hk1 : 1 ≤ k) (hkmi : k < mi)
    (hs : s.success = false) (hinv : LoopInv p mi k s) :
    LoopInv p mi (k + 1) (solveStep inter p eps gb k s) := by
  have hrng : ∀ r2 : RNG, LoopInv p mi (k + 1) { s with rng := r2 } := by
    intro r2
    exact Inv_mono p mi k (k + 1) _ (by omega) hinv
  simp only [solveStep]
  by_cases hz : (uniform01 s.rng).1 < gb
  · simp only [if_pos hz]
    split_ifs with hfree hgoal
    · exact (stepRecord_inv p mi k s p.x_goal eps _ hk1 hkmi hs hinv).2 hgoal
    · exact (stepRecord_inv p mi k s p.x_goal eps _ hk1 hkmi hs hinv).1 hgoal
    · exact hrng _
  · simp only [if_neg hz]
    split_ifs with hfree hgoal
    · exact (stepRecord_inv p mi k s _ eps _ hk1 hkmi hs hinv).2 hgoal
    · exact (stepRecord_inv p mi k s _ eps _ hk1 hkmi hs hinv).1 hgoal
    · exact hrng _

/- The loop from watermark k over c further iteration indices preserves the
   invariant. -/
theorem runIters_inv (inter : Seg → Seg → Bool) (p : Problem) (eps gb : ℝ)
    (mi : ℕ) : ∀ (c k : ℕ) (s : SolveState), 1 ≤ k → k + c ≤ mi →
    LoopInv p mi k s →
    LoopInv p mi (k + c) (runIters inter p eps gb (List.range' k c) s) := by
  intro c
  induction c with
  | zero =>
    intro k s hk _ hinv
    exact hinv
  | succ c ih =>
    intro k s hk hkc hinv
    have hrange : List.range' k (c + 1) = k :: List.range' (k + 1) c := rfl
    rw [hrange, runIters_cons]
    by_cases hs : s.success = true
    · rw [if_pos hs]
      exact Inv_mono p mi k (k + (c + 1)) s (by omega) hinv
    · have hs2 : s.success = false := by simpa using hs
      rw [if_neg hs]
      have hstep := solveStep_inv inter p eps gb mi k s hk (by omega) hs2 hinv
      have hrec := ih (k + 1) _ (by omega) (by omega) hstep
      have harith : k + 1 + c = k + (c + 1) := by omega
      rw [harith] at hrec
      exact hrec

/- The invariant holds of the final state of solve, with the watermark at
   max_iters. -/
theorem solve_inv (inter : Seg → Seg → Bool) (p : Problem) (eps gb : ℝ)
    (mi : ℕ) (r : RNG) : LoopInv p mi mi (solve inter p eps mi gb r) := by
  cases mi with
  | zero =>
    obtain ⟨⟨h1, h2, h3, h4, h5, h6, h7⟩, h8, h9⟩ := initState_inv p 0 r
    have hsolve : solve inter p eps 0 gb r = initState p 0 r := rfl
    rw [hsolve]
    refine ⟨⟨h1, h2, ?_, h4, h5, h6, h7⟩, h8, ?_⟩
    · intro j hj hjm
      exact absurd hjm (by omega)
    · intro hsucc
      obtain ⟨k0, _, hk0mi, _⟩ := h9 hsucc
      exact absurd hk0mi (by omega)
  | succ m =>
    have h1 := initState_inv p (m + 1) r
    have h2 := runIters_inv inter p eps gb (m + 1) m 1 (initState p (m + 1) r)
      (le_refl 1) (by omega) h1
    have h3 : 1 + m = m + 1 := by omega
    rw [h3] at h2
    exact h2

/-- C4: in every tree produced by solve, every occupied non-root slot (one
whose parent entry was written, or which holds a nonzero state) has a
parent entry that is nonnegative and strictly below its own index, and the
parent slot is itself occupied, so parent links point strictly backwards
and the tree is acyclic. -/
theorem c4_parent_invariant (inter : Seg → Seg → Bool) (p : Problem)
    (eps gb : ℝ) (mi : ℕ) (r : RNG) (i : ℕ) (h0 : 0 < i)
    (hocc : 0 ≤ (solve inter p eps mi gb r).P.getD i (-1) ∨
      (solve inter p eps mi gb r).V.getD i 0 ≠ 0) :
    0 ≤ (solve inter p eps mi gb r).P.getD i (-1) ∧
    (solve inter p eps mi gb r).P.getD i (-1) < (i : ℤ) ∧
    Occupied (solve inter p eps mi gb r)
      ((solve inter p eps mi gb r).P.getD i (-1)).toNat ∧
    ((solve inter p eps mi gb r).P.getD i (-1)).toNat < i := by
  obtain ⟨⟨hVlen, hPlen, hzero, hroot, hback, hpar, hwrit⟩, _, _⟩ :=
    solve_inv inter p eps gb mi r
  have hP : 0 ≤ (solve inter p eps mi gb r).P.getD i (-1) := by
    rcases hocc with h | h
    · exact h
    · exact hwrit i h0 h
  obtain ⟨ho, hlt⟩ := hpar i h0 hP
  exact ⟨hP, hback i h0, ho, hlt⟩

/-- C5: solve succeeds exactly when some non-root slot was written with a
state equal to the goal under exact state equality; on failure the solution
path is empty; and on success the path was reconstructed by soln_path at
the successful slot and every slot after it was never written (the loop
stopped). -/
theorem c5_success_characterization (inter : Seg → Seg → Bool) (p : Problem)
    (eps gb : ℝ) (mi : ℕ) (r : RNG) :
    ((solve inter p eps mi gb r).success = true ↔
      ∃ i, 0 < i ∧ i < mi ∧ 0 ≤ (solve inter p eps mi gb r).P.getD i (-1) ∧
        (solve inter p eps mi gb r).V.getD i 0 = p.x_goal) ∧
    ((solve inter p eps mi gb r).success = false →
      (solve inter p eps mi gb r).solution_path = []) ∧
    ((solve inter p eps mi gb r).success = true →
      ∃ k0, 0 < k0 ∧ k0 < mi ∧
        0 ≤ (solve inter p eps mi gb r).P.getD k0 (-1) ∧
        (solve inter p eps mi gb r).V.getD k0 0 = p.x_goal ∧
        (solve inter p eps mi gb r).solution_path =
          soln_path (solve inter p eps mi gb r).V
            (solve inter p eps mi gb r).P k0 ∧
        ∀ j, k0 < j → j < mi →
          (solve inter p eps mi gb r).P.getD j (-1) = -1 ∧
          (solve inter p eps mi gb r).V.getD j 0 = 0) := by
  obtain ⟨htree, hnos, hyes⟩ := solve_inv inter p eps gb mi r
  refine ⟨⟨?_, ?_⟩, ?_, ?_⟩
  · intro hsucc
    obtain ⟨k0, a, b, _, c, d, _, _⟩ := hyes hsucc
    exact ⟨k0, a, b, c, d⟩
  · intro h
    obtain ⟨i, hi0, him, hip, hig⟩ := h
    cases hsv : (solve inter p eps mi gb r).success with
    | false => exact absurd hig ((hnos hsv).2 i hi0 hip)
    | true => rfl
  · intro hs
    exact (hnos hs).1
  · intro hsucc
    obtain ⟨k0, a, b, _, c, d, e, f⟩ := hyes hsucc
    exact ⟨k0, a, b, c, d, e, f⟩

/- Concrete norm and steering evaluations for the example runs. -/

theorem norm2_one_zero : norm2 ((1, 0) : St) = 1 := by
  rw [norm2]
  norm_num [Real.sqrt_one]

theorem norm2_zero_zero : norm2 ((0, 0) : St) = 0 := by
  rw [norm2]
  norm_num

theorem sub_two_one : ((2, 0) : St) - ((1, 0) : St) = ((1, 0) : St) := by
  rw [Prod.mk_sub_mk]
  norm_num

theorem fnA : find_nearest [((1, 0) : St), ((0, 0) : St)] ((2, 0) : St) = 0 := by
  rw [find_nearest, findNearestLoop_cons,
    if_neg (show ¬norm2 ((1, 0) : St) = 0 from by rw [norm2_one_zero]; norm_num),
    if_pos (show threshOk (norm2 (((1, 0) : St) - ((2, 0) : St))) none from trivial),
    findNearestLoop_cons, if_pos norm2_zero_zero, findNearestLoop_nil]

theorem steerA : steer_towards ((1, 0) : St) ((2, 0) : St) 5 = ((2, 0) : St) := by
  rw [steer_towards, sub_two_one, norm2_one_zero,
    if_pos (show (1 : ℝ) < 5 from by norm_num)]

theorem steerB : steer_towards ((1, 0) : St) ((2, 0) : St) (-1) = ((0, 0) : St) := by
  rw [steer_towards, sub_two_one, norm2_one_zero,
    if_neg (show ¬(1 : ℝ) < -1 from by norm_num)]
  rw [Prod.smul_mk, Prod.mk_add_mk]
  norm_num

/- The example run with a valid configuration (eps = 5, max_iters = 2,
   goal_bias = 1): the first iteration samples the goal, steers from the
   root all the way to it, inserts it at slot 1 and succeeds. -/
theorem solveA_eval : solve interEx pEx 5 2 1 rngEx =
    { V := [((1, 0) : St), ((2, 0) : St)], P := [-1, 0], n := 1,
      success := true, solution_path := [((1, 0) : St), ((2, 0) : St)],
      rng := ⟨fun _ => 0, 3⟩ } := by
  show solveStep interEx pEx 5 1 1 (initState pEx 2 rngEx) = _
  simp only [solveStep]
  rw [if_pos (show (uniform01 (initState pEx 2 rngEx).rng).1 < 1 from by
    show (0 : ℝ) < 1
    norm_num)]
  rw [show find_nearest (initState pEx 2 rngEx).V pEx.x_goal = 0 from fnA]
  rw [show (initState pEx 2 rngEx).V.getD 0 0 = ((1, 0) : St) from rfl]
  rw [show steer_towards ((1, 0) : St) pEx.x_goal 5 = ((2, 0) : St) from steerA]
  rw [if_pos (show is_free_motion interEx pEx.obstacles ((1, 0) : St)
    ((2, 0) : St) = true from rfl)]
  rw [if_pos (show ((2, 0) : St) = pEx.x_goal from rfl)]
  rfl

/- The example run with the invalid configuration eps = -1: no error is
   raised, the first iteration still draws its three scalars, steers
   backwards from the root to the origin and inserts it at slot 1. -/
theorem solveB_eval : solve interEx pEx (-1) 2 1 rngEx =
    { V := [((1, 0) : St), ((0, 0) : St)], P := [-1, 0], n := 1,
      success := false, solution_path := [], rng := ⟨fun _ => 0, 3⟩ } := by
  show solveStep interEx pEx (-1) 1 1 (initState pEx 2 rngEx) = _
  simp only [solveStep]
  rw [if_pos (show (uniform01 (initState pEx 2 rngEx).rng).1 < 1 from by
    show (0 : ℝ) < 1
    norm_num)]
  rw [show find_nearest (initState pEx 2 rngEx).V pEx.x_goal = 0 from fnA]
  rw [show (initState pEx 2 rngEx).V.getD 0 0 = ((1, 0) : St) from rfl]
  rw [show steer_towards ((1, 0) : St) pEx.x_goal (-1) = ((0, 0) : St) from steerB]
  rw [if_pos (show is_free_motion interEx pEx.obstacles ((1, 0) : St)
    ((0, 0) : St) = true from rfl)]
  rw [if_neg (show ¬(((0, 0) : St) = pEx.x_goal) from by
    intro h
    have h1 : (0 : ℝ) = 2 := congrArg Prod.fst h
    norm_num at h1)]
  rfl

/-- C1: find_nearest does not return the index of the closest occupied
state when that state is the all-zero vector: on the occupied tree
V = [(-1,-1), (0,0)] (n = 2, slot 1 legitimately holding the origin) and
the query (0,0), the code skips the zero row and returns 0 although row 1
is strictly closer, contradicting the minimisation contract; the result
therefore depends on whether an occupied state equals the all-zero
vector. -/
theorem c1_find_nearest_skips_zero_state :
    find_nearest [((-1, -1) : St), ((0, 0) : St)] ((0, 0) : St) = 0 ∧
    norm2 (((0, 0) : St) - ((0, 0) : St)) <
      norm2 (((-1, -1) : St) - ((0, 0) : St)) := by
  have hm : norm2 ((-1, -1) : St) = Real.sqrt 2 := by
    rw [norm2]
    norm_num
  have hmne : ¬norm2 ((-1, -1) : St) = 0 := by
    rw [hm]
    exact (Real.sqrt_pos.mpr (by norm_num)).ne'
  have hsub1 : ((-1, -1) : St) - ((0, 0) : St) = ((-1, -1) : St) := by
    rw [Prod.mk_sub_mk]
    norm_num
  have hsub0 : ((0, 0) : St) - ((0, 0) : St) = ((0, 0) : St) := by
    rw [Prod.mk_sub_mk]
    norm_num
  constructor
  · rw [find_nearest, findNearestLoop_cons, if_neg hmne,
      if_pos (show threshOk (norm2 (((-1, -1) : St) - ((0, 0) : St))) none
        from trivial),
      findNearestLoop_cons, if_pos norm2_zero_zero, findNearestLoop_nil]
  · rw [hsub0, hsub1, norm2_zero_zero, hm]
    exact Real.sqrt_pos.mpr (by norm_num)

/-- C2: the counter n is initialised to 1 and never incremented by the
loop, so it does not track the number of occupied entries: in the example
run the final tree holds two occupied entries (the root and the goal at
slot 1, whose parent entry was written) while n is still 1. -/
theorem c2_n_never_incremented :
    (∀ (inter : Seg → Seg → Bool) (p : Problem) (eps : ℝ) (mi : ℕ)
      (gb : ℝ) (r : RNG), (solve inter p eps mi gb r).n = 1) ∧
    (solve interEx pEx 5 2 1 rngEx).n = 1 ∧
    0 ≤ (solve interEx pEx 5 2 1 rngEx).P.getD 1 (-1) ∧
    (solve interEx pEx 5 2 1 rngEx).V.getD 1 0 = pEx.x_goal := by
  have hall : ∀ (inter : Seg → Seg → Bool) (p : Problem) (eps : ℝ) (mi : ℕ)
      (gb : ℝ) (r : RNG), (solve inter p eps mi gb r).n = 1 := by
    intro inter p eps mi gb r
    show (runIters inter p eps gb (List.range' 1 (mi - 1))
      (initState p mi r)).n = 1
    rw [runIters_n]
    rfl
  refine ⟨hall, hall _ _ _ _ _ _, ?_, ?_⟩
  · rw [solveA_eval]
    decide
  · rw [solveA_eval]
    rfl

/-- C3 counterexample: with the invalid configuration eps = -1 the code
does not fail fast: it draws the three scalars of the first iteration and
inserts a state at slot 1 (mutating the tree), so no InvalidConfiguration
rejection happens before sampling. -/
theorem c3_no_validation_counterexample :
    (solve interEx pEx (-1) 2 1 rngEx).rng.pos = rngEx.pos + 3 ∧
    (solve interEx pEx (-1) 2 1 rngEx).P.getD 1 (-1) = 0 := by
  rw [solveB_eval]
  exact ⟨rfl, rfl⟩

/-- C3 amended: solve performs no configuration validation at all: even
with eps below zero (and whatever the goal bias), the loop runs and the
random source is consumed, with at least the three draws of the first
iteration happening. -/
theorem c3_no_validation_amended (inter : Seg → Seg → Bool) (p : Problem)
    (eps gb : ℝ) (mi : ℕ) (r : RNG) (heps : eps ≤ 0) (hmi : 2 ≤ mi) :
    r.pos + 3 ≤ (solve inter p eps mi gb r).rng.pos := by
  have h1 : List.range' 1 (mi - 1) = 1 :: List.range' 2 (mi - 2) := by
    have h2 : mi - 1 = (mi - 2) + 1 := by omega
    rw [h2]
    rfl
  show r.pos + 3 ≤ (runIters inter p eps gb (List.range' 1 (mi - 1))
    (initState p mi r)).rng.pos
  rw [h1, runIters_cons, if_neg (fun h => Bool.noConfusion h)]
  have h2 := runIters_rng_pos_le inter p eps gb (List.range' 2 (mi - 2))
    (solveStep inter p eps gb 1 (initState p mi r))
  have h3 : (solveStep inter p eps gb 1 (initState p mi r)).rng.pos =
      r.pos + 3 := by
    rw [solveStep_rng]
    rfl
  omega

/-- C3 amended witness: the amended theorem applied to the concrete
invalid run with eps = -1 and max_iters = 2. -/
theorem c3_no_validation_amended_witness :
    (-1 : ℝ) ≤ 0 ∧ 2 ≤ 2 ∧
    rngEx.pos + 3 ≤ (solve interEx pEx (-1) 2 1 rngEx).rng.pos :=
  ⟨by norm_num, le_refl 2,
    c3_no_validation_amended interEx pEx (-1) 1 2 rngEx (by norm_num)
      (le_refl 2)⟩

/-- C9: solve is a deterministic function of the seeded random source and
the configuration: two runs over random sources with the same stream and
the same cursor produce identical final states, hence identical trees
(V, P, n), success flags and solution paths. -/
theorem c9_solve_deterministic (inter : Seg → Seg → Bool) (p : Problem)
    (eps gb : ℝ) (mi : ℕ) (r1 r2 : RNG) (hpos : r1.pos = r2.pos)
    (hstream : ∀ i, r1.stream i = r2.stream i) :
    solve inter p eps mi gb r1 = solve inter p eps mi gb r2 := by
  have hr : r1 = r2 := by
    obtain ⟨s1, q1⟩ := r1
    obtain ⟨s2, q2⟩ := r2
    have hs : s1 = s2 := funext hstream
    have hq : q1 = q2 := hpos
    rw [hs, hq]
  rw [hr]

/-- C9 witness: the determinism theorem applied at the concrete example
run against itself. -/
theorem c9_solve_deterministic_witness :
    solve interEx pEx 5 2 1 rngEx = solve interEx pEx 5 2 1 rngEx :=
  c9_solve_deterministic interEx pEx 5 1 2 rngEx rngEx rfl (fun _ => rfl)

/- Unfolding equations for pathWalk. -/

theorem pathWalk_zero (V : List St) (P : List ℤ) (idx : ℤ) :
    pathWalk V P 0 idx = [] := rfl

theorem pathWalk_succ (V : List St) (P : List ℤ) (f : ℕ) (idx : ℤ) :
    pathWalk V P (f + 1) idx =
      if -1 < idx then
        V.getD idx.toNat 0 :: pathWalk V P f (P.getD idx.toNat (-1))
      else [] := rfl

/- The walk stops immediately on a negative index, whatever the fuel. -/
theorem pathWalk_neg (V : List St) (P : List ℤ) (idx : ℤ) (hidx : idx ≤ -1) :
    ∀ fuel, pathWalk V P fuel idx = [] := by
  intro fuel
  cases fuel with
  | zero => rfl
  | succ f => rw [pathWalk_succ, if_neg (by omega)]

/- Under the parent invariant the walk from index i is independent of the
   fuel once the fuel reaches i + 1, visits at most i + 1 states, starts at
   the state of index i and ends at the root state. -/
theorem pathWalk_spec (V : List St) (P : List ℤ)
    (hroot : P.getD 0 (-1) = -1)
    (hpar : ∀ j, 0 < j → j < P.length →
      0 ≤ P.getD j (-1) ∧ P.getD j (-1) < (j : ℤ)) :
    ∀ i : ℕ, i < P.length →
      (∀ f, i + 1 ≤ f → pathWalk V P f (i : ℤ) = pathWalk V P (i + 1) (i : ℤ)) ∧
      (pathWalk V P (i + 1) (i : ℤ)).length ≤ i + 1 ∧
      (pathWalk V P (i + 1) (i : ℤ)).head? = some (V.getD i 0) ∧
      (pathWalk V P (i + 1) (i : ℤ)).getLast? = some (V.getD 0 0) := by
  intro i
  induction i using Nat.strong_induction_on with
  | _ i ih =>
    intro hi
    by_cases hi0 : i = 0
    · subst hi0
      have hw : ∀ f, 1 ≤ f → pathWalk V P f ((0 : ℕ) : ℤ) = [V.getD 0 0] := by
        intro f hf
        obtain ⟨g, rfl⟩ : ∃ g, f = g + 1 := ⟨f - 1, by omega⟩
        rw [pathWalk_succ, if_pos (by omega)]
        have h0 : (((0 : ℕ) : ℤ)).toNat = 0 := rfl
        rw [h0, hroot, pathWalk_neg V P (-1) (by omega)]
      refine ⟨fun f hf => by rw [hw f hf, hw 1 (le_refl 1)], ?_, ?_, ?_⟩
      · rw [hw 1 (le_refl 1)]
        simp
      · rw [hw 1 (le_refl 1)]
        rfl
      · rw [hw 1 (le_refl 1)]
        rfl
    · have hip : 0 < i := Nat.pos_of_ne_zero hi0
      obtain ⟨hge, hlt⟩ := hpar i hip hi
      have hpncast : (((P.getD i (-1)).toNat : ℕ) : ℤ) = P.getD i (-1) :=
        Int.toNat_of_nonneg hge
      have hpni : (P.getD i (-1)).toNat < i := by omega
      obtain ⟨hfuel, hlen, hhead, hlast⟩ :=
        ih (P.getD i (-1)).toNat hpni (by omega)
      have hwalk : ∀ f, i + 1 ≤ f → pathWalk V P f ((i : ℕ) : ℤ) =
          V.getD i 0 ::
            pathWalk V P ((P.getD i (-1)).toNat + 1)
              (((P.getD i (-1)).toNat : ℕ) : ℤ) := by
        intro f hf
        obtain ⟨g, rfl⟩ : ∃ g, f = g + 1 := ⟨f - 1, by omega⟩
        rw [pathWalk_succ, if_pos (by omega : (-1 : ℤ) < ((i : ℕ) : ℤ))]
        have hti : (((i : ℕ) : ℤ)).toNat = i := by omega
        rw [hti]
        congr 1
        rw [← hpncast]
        exact hfuel g (by omega)
      refine ⟨fun f hf => by rw [hwalk f hf, hwalk (i + 1) (le_refl _)],
        ?_, ?_, ?_⟩
      · rw [hwalk (i + 1) (le_refl _)]
        simp only [List.length_cons]
        omega
      · rw [hwalk (i + 1) (le_refl _)]
        rfl
      · rw [hwalk (i + 1) (le_refl _)]
        cases hl : pathWalk V P ((P.getD i (-1)).toNat + 1)
            (((P.getD i (-1)).toNat : ℕ) : ℤ) with
        | nil =>
          rw [hl] at hhead
          cases hhead
        | cons b t =>
          rw [hl] at hlast
          rw [List.getLast?_cons_cons]
          exact hlast

/-- C6: on a tree whose parent array satisfies the invariant (root parent
-1, every other parent entry nonnegative and strictly below its index),
soln_path at a valid index i terminates within i + 1 parent steps (the
walk is fuel independent from fuel i + 1 on, and its length is at most the
tree size), and yields the child-to-root walk reversed: it starts at the
root state and ends at the state of index i. -/
theorem c6_soln_path_spec (V : List St) (P : List ℤ) (i : ℕ)
    (hlen : P.length = V.length) (hi : i < V.length)
    (hroot : P.getD 0 (-1) = -1)
    (hpar : ∀ j, 0 < j → j < V.length →
      0 ≤ P.getD j (-1) ∧ P.getD j (-1) < (j : ℤ)) :
    (∀ f, i + 1 ≤ f →
      pathWalk V P f ((i : ℕ) : ℤ) = pathWalk V P (i + 1) ((i : ℕ) : ℤ)) ∧
    (soln_path V P i).length ≤ V.length ∧
    (soln_path V P i).head? = some (V.getD 0 0) ∧
    (soln_path V P i).getLast? = some (V.getD i 0) := by
  have hpar2 : ∀ j, 0 < j → j < P.length →
      0 ≤ P.getD j (-1) ∧ P.getD j (-1) < (j : ℤ) := by
    intro j hj hjl
    exact hpar j hj (by omega)
  obtain ⟨hfuel, hlen2, hhead, hlast⟩ := pathWalk_spec V P hroot hpar2 i (by omega)
  have hsoln : soln_path V P i = (pathWalk V P (i + 1) ((i : ℕ) : ℤ)).reverse := by
    rw [soln_path, hfuel (V.length + 1) (by omega)]
  refine ⟨hfuel, ?_, ?_, ?_⟩
  · rw [hsoln, List.length_reverse]
    omega
  · rw [hsoln, List.head?_reverse]
    exact hlast
  · rw [hsoln, List.getLast?_reverse]
    exact hhead

/-- C6 witness: the soln_path theorem applied to the concrete produced
tree V = [(1,0), (2,0)], P = [-1, 0] at index 1. -/
theorem c6_soln_path_spec_witness :
    (soln_path [((1, 0) : St), ((2, 0) : St)] [(-1 : ℤ), 0] 1).length ≤
      [((1, 0) : St), ((2, 0) : St)].length ∧
    (soln_path [((1, 0) : St), ((2, 0) : St)] [(-1 : ℤ), 0] 1).head? =
      some ([((1, 0) : St), ((2, 0) : St)].getD 0 0) ∧
    (soln_path [((1, 0) : St), ((2, 0) : St)] [(-1 : ℤ), 0] 1).getLast? =
      some ([((1, 0) : St), ((2, 0) : St)].getD 1 0) :=
  (c6_soln_path_spec [((1, 0) : St), ((2, 0) : St)] [(-1 : ℤ), 0] 1 rfl
    (by simp) rfl
    (by
      intro j hj hjl
      simp only [List.length_cons, List.length_nil] at hjl
      interval_cases j
      exact ⟨by decide, by decide⟩)).2

/-- C4 witness: the parent invariant theorem applied to the concrete
example run at the occupied slot 1. -/
theorem c4_parent_invariant_witness :
    0 ≤ (solve interEx pEx 5 2 1 rngEx).P.getD 1 (-1) ∧
    (solve interEx pEx 5 2 1 rngEx).P.getD 1 (-1) < ((1 : ℕ) : ℤ) ∧
    Occupied (solve interEx pEx 5 2 1 rngEx)
      ((solve interEx pEx 5 2 1 rngEx).P.getD 1 (-1)).toNat ∧
    ((solve interEx pEx 5 2 1 rngEx).P.getD 1 (-1)).toNat < 1 :=
  c4_parent_invariant interEx pEx 5 1 2 rngEx 1 (by decide)
    (Or.inl (by rw [solveA_eval]; decide))

/-- C5 witness: the success characterisation applied to the concrete
example run. -/
theorem c5_success_characterization_witness :
    ((solve interEx pEx 5 2 1 rngEx).success = true ↔
      ∃ i, 0 < i ∧ i < 2 ∧
        0 ≤ (solve interEx pEx 5 2 1 rngEx).P.getD i (-1) ∧
        (solve interEx pEx 5 2 1 rngEx).V.getD i 0 = pEx.x_goal) ∧
    ((solve interEx pEx 5 2 1 rngEx).success = false →
      (solve interEx pEx 5 2 1 rngEx).solution_path = []) ∧
    ((solve interEx pEx 5 2 1 rngEx).success = true →
      ∃ k0, 0 < k0 ∧ k0 < 2 ∧
        0 ≤ (solve interEx pEx 5 2 1 rngEx).P.getD k0 (-1) ∧
        (solve interEx pEx 5 2 1 rngEx).V.getD k0 0 = pEx.x_goal ∧
        (solve interEx pEx 5 2 1 rngEx).solution_path =
          soln_path (solve interEx pEx 5 2 1 rngEx).V
            (solve interEx pEx 5 2 1 rngEx).P k0 ∧
        ∀ j, k0 < j → j < 2 →
          (solve interEx pEx 5 2 1 rngEx).P.getD j (-1) = -1 ∧
          (solve interEx pEx 5 2 1 rngEx).V.getD j 0 = 0) :=
  c5_success_characterization interEx pEx 5 1 2 rngEx
